import Mathlib

/-!
# gha-updates: version comparison and remote tag resolution

A shallow embedding of `src/main.go` (package `main` of `nopcoder/gha-updates`)
and of the library functions it calls (`strings.Cut`, `strings.Split`,
`strings.Join`, `strings.ReplaceAll`, `strings.Fields`, `strings.HasPrefix`,
and `golang.org/x/mod/semver.Compare`).

The library functions are not part of the repository; they are embedded
from their Go sources (`strings/strings.go`, `unicode/graphic.go`,
`golang.org/x/mod/semver/semver.go`), loop by loop.

Modelling conventions.

* A Go `string` is modelled as a `List Char`, i.e. as well-formed UTF-8 text.
  Byte-wise tests of the Go code against ASCII constants (`v[0] == 'v'`,
  `'0' <= v[i]`, ...) are code-point tests here; on well-formed UTF-8 the two
  agree, because no byte of a multi-byte sequence is an ASCII byte, and
  byte-wise lexicographic order coincides with code-point order.
* Every separator used by `main.go` (`"@"`, `"/"`, `"\n"`, `"\r"`) is one
  byte long, so the `strings` functions are modelled at a one-character
  separator.
* The map `repos map[string]string` is a function `Str → Option Str`.
* The subprocess (`exec.LookPath`, `exec.Command(...).Output()`) is a
  parameter whose answers may depend on the whole history of earlier
  resolutions; the history itself is kept as a trace next to the updater.
-/

namespace GhaUpdates

/-- Go strings, as sequences of code points. -/
abbrev Str := List Char

/-! ## Package `strings` -/

/-- Index of the first occurrence of the one-byte separator, as in
`strings.Index(s, sep)`; `none` stands for `-1`. -/
def Index : Str → Char → Option Nat
  | [], _ => none
  | c :: cs, sep => if c = sep then some 0 else (Index cs sep).map (· + 1)

/-- Model of `strings.Cut(s, sep)`: the text before and after the first
occurrence of `sep`, and whether `sep` was found. -/
def Cut (s : Str) (sep : Char) : Str × Str × Bool :=
  match Index s sep with
  | some i => (s.take i, s.drop (i + 1), true)
  | none => (s, [], false)

/-- Model of `strings.Split(s, sep)` for a one-byte `sep`: the pieces between
the occurrences of `sep`; there is always at least one piece. -/
def Split : Str → Char → List Str
  | [], _ => [[]]
  | c :: cs, sep =>
    if c = sep then [] :: Split cs sep
    else
      match Split cs sep with
      | [] => [[c]]
      | p :: ps => (c :: p) :: ps

/-- Model of `strings.Join(elems, sep)`. -/
def Join : List Str → Str → Str
  | [], _ => []
  | [a], _ => a
  | a :: b :: rest, sep => a ++ sep ++ Join (b :: rest) sep

/-- Model of `strings.ReplaceAll(s, old, new)` for a one-byte `old`. -/
def ReplaceAll : Str → Char → Str → Str
  | [], _, _ => []
  | c :: cs, old, new =>
    if c = old then new ++ ReplaceAll cs old new else c :: ReplaceAll cs old new

/-- Model of `unicode.IsSpace`: the code points with the White_Space
property. -/
def isSpace (c : Char) : Bool :=
  c = '\t' || c = '\n' || c.val = 0x0B || c.val = 0x0C || c = '\r' || c = ' '
    || c.val = 0x85 || c.val = 0xA0 || c.val = 0x1680
    || (0x2000 ≤ c.val && c.val ≤ 0x200A)
    || c.val = 0x2028 || c.val = 0x2029 || c.val = 0x202F || c.val = 0x205F
    || c.val = 0x3000

/-- The scanning loop of `strings.FieldsFunc`: `cur` is the field being read
(`none` when between fields, the Go code's `start < 0`), `acc` the fields
completed so far. -/
def fieldsLoop : Str → Option Str → List Str → List Str
  | [], none, acc => acc
  | [], some w, acc => acc ++ [w]
  | c :: cs, cur, acc =>
    if isSpace c then
      match cur with
      | some w => fieldsLoop cs none (acc ++ [w])
      | none => fieldsLoop cs none acc
    else
      match cur with
      | some w => fieldsLoop cs (some (w ++ [c])) acc
      | none => fieldsLoop cs (some [c]) acc

/-- Model of `strings.Fields(s)`: the maximal runs of non-space code points,
in order. -/
def Fields (s : Str) : List Str := fieldsLoop s none []

/-- Model of `strings.HasPrefix(s, p)`. -/
def HasPrefix (s p : Str) : Bool := p.isPrefixOf s

/-! ## Package `golang.org/x/mod/semver` -/

namespace semver

/-- The type `parsed` of package semver. -/
structure Parsed where
  major : Str
  minor : Str
  patch : Str
  short : Str
  prerelease : Str
  build : Str
deriving DecidableEq

/-- The test `'0' <= c && c <= '9'`. -/
def isDigit (c : Char) : Bool := decide ('0' ≤ c) && decide (c ≤ '9')

/-- Model of `isIdentChar`. -/
def isIdentChar (c : Char) : Bool :=
  (decide ('A' ≤ c) && decide (c ≤ 'Z')) || (decide ('a' ≤ c) && decide (c ≤ 'z'))
    || (decide ('0' ≤ c) && decide (c ≤ '9')) || c = '-'

/-- Model of `parseInt`: the leading run of digits (without a leading zero
unless it is `0` itself) and the rest; `none` for `ok == false`. -/
def parseInt (v : Str) : Option (Str × Str) :=
  match v with
  | [] => none
  | c :: cs =>
    if c < '0' ∨ '9' < c then none
    else
      let i := 1 + (cs.takeWhile isDigit).length
      if c = '0' ∧ i ≠ 1 then none
      else some (v.take i, v.drop i)

/-- Model of `isBadNum`: all digits, longer than one, leading zero. -/
def isBadNum (v : Str) : Bool :=
  let i := (v.takeWhile isDigit).length
  decide (i = v.length) && decide (i > 1) && decide (v.head? = some '0')

/-- Model of `isNum`: all digits. -/
def isNum (v : Str) : Bool :=
  decide ((v.takeWhile isDigit).length = v.length)

/-- The loop of `parsePrerelease`, reading `v[i:]`; `cur` is `v[start:i]`.
Returns the final `i`, or `none` where the Go code returns `ok == false`. -/
def prereleaseLoop : Str → Str → Nat → Option Nat
  | [], cur, i => if cur = [] ∨ isBadNum cur then none else some i
  | c :: cs, cur, i =>
    if c = '+' then (if cur = [] ∨ isBadNum cur then none else some i)
    else if !isIdentChar c && c ≠ '.' then none
    else if c = '.' then
      (if cur = [] ∨ isBadNum cur then none else prereleaseLoop cs [] (i + 1))
    else prereleaseLoop cs (cur ++ [c]) (i + 1)

/-- Model of `parsePrerelease`. -/
def parsePrerelease (v : Str) : Option (Str × Str) :=
  match v with
  | [] => none
  | c :: cs =>
    if c ≠ '-' then none
    else
      match prereleaseLoop cs [] 1 with
      | none => none
      | some i => some (v.take i, v.drop i)

/-- The loop of `parseBuild`, reading `v[i:]`; `cur` is `v[start:i]`. -/
def buildLoop : Str → Str → Nat → Option Nat
  | [], cur, i => if cur = [] then none else some i
  | c :: cs, cur, i =>
    if !isIdentChar c && c ≠ '.' then none
    else if c = '.' then (if cur = [] then none else buildLoop cs [] (i + 1))
    else buildLoop cs (cur ++ [c]) (i + 1)

/-- Model of `parseBuild`. -/
def parseBuild (v : Str) : Option (Str × Str) :=
  match v with
  | [] => none
  | c :: cs =>
    if c ≠ '+' then none
    else
      match buildLoop cs [] 1 with
      | none => none
      | some i => some (v.take i, v.drop i)

/-- The tail of `parse`, after the patch number has been read: optional
prerelease, optional build, then end of input. -/
def parseTail (major minor patch v : Str) : Option Parsed :=
  let pre : Option (Str × Str) :=
    if v.head? = some '-' then parsePrerelease v else some ([], v)
  match pre with
  | none => none
  | some (prerelease, v1) =>
    let bld : Option (Str × Str) :=
      if v1.head? = some '+' then parseBuild v1 else some ([], v1)
    match bld with
    | none => none
    | some (build, v2) =>
      if v2 ≠ [] then none
      else some ⟨major, minor, patch, [], prerelease, build⟩

/-- Model of `parse`: `none` for `ok == false`. -/
def parse (v : Str) : Option Parsed :=
  match v with
  | [] => none
  | c :: v0 =>
    if c ≠ 'v' then none
    else
      match parseInt v0 with
      | none => none
      | some (major, v1) =>
        match v1 with
        | [] => some ⟨major, "0".toList, "0".toList, ".0.0".toList, [], []⟩
        | d1 :: r1 =>
          if d1 ≠ '.' then none
          else
            match parseInt r1 with
            | none => none
            | some (minor, v2) =>
              match v2 with
              | [] => some ⟨major, minor, "0".toList, ".0".toList, [], []⟩
              | d2 :: r2 =>
                if d2 ≠ '.' then none
                else
                  match parseInt r2 with
                  | none => none
                  | some (patch, v3) => parseTail major minor patch v3

/-- Model of `semver.IsValid`. -/
def IsValid (v : Str) : Bool := (parse v).isSome

/-- Go's `x < y` on strings: lexicographic order. -/
def strLess : Str → Str → Bool
  | _, [] => false
  | [], _ :: _ => true
  | a :: as, b :: bs => if a < b then true else if b < a then false else strLess as bs

/-- Model of `compareInt`. -/
def compareInt (x y : Str) : Int :=
  if x = y then 0
  else if x.length < y.length then -1
  else if x.length > y.length then 1
  else if strLess x y then -1
  else 1

/-- Model of `nextIdent`: the text up to the next `.`, and the rest. -/
def nextIdent (x : Str) : Str × Str :=
  let i := (x.takeWhile (· ≠ '.')).length
  (x.take i, x.drop i)

/-- The loop `for x != "" && y != ""` of `comparePrerelease`, which is only
run on the prerelease strings of parsed versions (ASCII text). Every round
removes at least one character of `x`, so `fuel > x.length` rounds are never
used up (`prereleaseRounds_fuel` below). -/
def prereleaseRounds : Nat → Str → Str → Int
  | 0, _, _ => 0
  | fuel + 1, x, y =>
    if x ≠ [] ∧ y ≠ [] then
      let dx := (nextIdent (x.drop 1)).1
      let x1 := (nextIdent (x.drop 1)).2
      let dy := (nextIdent (y.drop 1)).1
      let y1 := (nextIdent (y.drop 1)).2
      if dx ≠ dy then
        let ix := isNum dx
        let iy := isNum dy
        if ix ≠ iy then (if ix then -1 else 1)
        else if ix ∧ dx.length < dy.length then -1
        else if ix ∧ dx.length > dy.length then 1
        else if strLess dx dy then -1
        else 1
      else prereleaseRounds fuel x1 y1
    else if x = [] then -1
    else 1

/-- Model of `comparePrerelease`. -/
def comparePrerelease (x y : Str) : Int :=
  if x = y then 0
  else if x = [] then 1
  else if y = [] then -1
  else prereleaseRounds (x.length + 1) x y

/-- Model of `semver.Compare`. -/
def Compare (v w : Str) : Int :=
  match parse v, parse w with
  | none, none => 0
  | none, some _ => -1
  | some _, none => 1
  | some pv, some pw =>
    if compareInt pv.major pw.major ≠ 0 then compareInt pv.major pw.major
    else if compareInt pv.minor pw.minor ≠ 0 then compareInt pv.minor pw.minor
    else if compareInt pv.patch pw.patch ≠ 0 then compareInt pv.patch pw.patch
    else comparePrerelease pv.prerelease pw.prerelease

end semver

/-! ## `main.go` -/

/-- The constant `"refs/tags/"`. -/
def tagRefPrefix : Str := "refs/tags/".toList

/-- One round of the loop of `parseOutputTags`: `tags` after the line has
been handled. -/
def parseOutputTagsStep (tags : List Str) (line : Str) : List Str :=
  let fields := Fields line
  if fields.length < 2 then tags
  else if !HasPrefix (fields.getD 1 []) tagRefPrefix then tags
  else
    let tag := (fields.getD 1 []).drop tagRefPrefix.length
    if tag = [] then tags
    else tags ++ [tag]

/-- Model of `parseOutputTags` (main.go, lines 135-153). -/
def parseOutputTags (out : Str) : List Str :=
  let lines := Split (ReplaceAll out '\r' []) '\n'
  lines.foldl parseOutputTagsStep []

/-- A Go `error` value. -/
structure GoError where
  msg : Str
deriving DecidableEq

/-- One remote resolution made during a run: the repository handed to
`getLatestTag` and what the call returned. -/
structure Resolution where
  repo : Str
  result : Except GoError Str

/-- The resolutions made so far, oldest first. -/
abbrev Trace := List Resolution

/-- The part of package `os/exec` used by `getLatestTag`. What the host
answers may depend on everything that was resolved before. -/
structure Exec where
  LookPath : Trace → Str → Except GoError Str
  Output : Trace → Str → List Str → Except GoError Str

/-- The struct `ActionsUpdater` (main.go, lines 53-55). -/
structure ActionsUpdater where
  repos : Str → Option Str

/-- Model of `NewActionsUpdater` (main.go, lines 57-61). -/
def NewActionsUpdater : ActionsUpdater := ⟨fun _ => none⟩

/-- An updater together with the trace of the resolutions it has made. -/
structure Run where
  u : ActionsUpdater
  trace : Trace

/-- The arguments `getLatestTag` passes to git. -/
def lsRemoteArgs (repo : Str) : List Str :=
  ["-c".toList, "versionsort.suffix=-".toList, "ls-remote".toList, "--tags".toList,
    "--sort=v:refname".toList, "https://github.com/".toList ++ repo ++ ".git".toList]

/-- Model of `ActionsUpdater.getLatestTag` (main.go, lines 113-133); `t` is
the trace at the time of the call. The debug print of the captured error
stream is not modelled. -/
def getLatestTag (os : Exec) (t : Trace) (repo : Str) : Except GoError Str :=
  match os.LookPath t "git".toList with
  | .error err => .error err
  | .ok gitPath =>
    match os.Output t gitPath (lsRemoteArgs repo) with
    | .error err => .error err
    | .ok out =>
      let tags := parseOutputTags out
      .ok (if tags.length > 0 then tags.getD (tags.length - 1) [] else [])

/-- Lines 90-94 of `Update`: the repository name re-formatted to owner and
repository. -/
def safeRepo (repo : Str) : Str :=
  let repoParts := Split repo '/'
  if repoParts.length > 2 then Join (repoParts.take 2) "/".toList else repo

/-- Model of `ActionsUpdater.Update` (main.go, lines 83-111): the returned
pair `(string, error)` and the updater (with its trace) after the call. -/
def Update (os : Exec) (s : Run) (use : Str) : (Str × Option GoError) × Run :=
  match Cut use '@' with
  | (repo, tag, ok) =>
    if !ok || repo = [] || tag = [] then (([], none), s)
    else
      match s.u.repos (safeRepo repo) with
      | some latest =>
        if semver.Compare latest tag > 0 then ((latest, none), s) else (([], none), s)
      | none =>
        match getLatestTag os s.trace (safeRepo repo) with
        | .error err =>
          (([], some err), ⟨s.u, s.trace ++ [⟨safeRepo repo, .error err⟩]⟩)
        | .ok latestTag =>
          let s1 : Run :=
            ⟨⟨fun k => if k = safeRepo repo then some latestTag else s.u.repos k⟩,
              s.trace ++ [⟨safeRepo repo, .ok latestTag⟩]⟩
          if semver.Compare latestTag tag > 0 then ((latestTag, none), s1)
          else (([], none), s1)

/-- A sequence of `Update` calls on one updater, whatever each call returns
(`main` keeps using the same updater after a failed `Scan`). -/
def runUpdates (os : Exec) (s : Run) : List Str → Run
  | [] => s
  | use :: rest => runUpdates os (Update os s use).2 rest

/-- The run a fresh updater starts from. -/
def freshRun : Run := ⟨NewActionsUpdater, []⟩

/-- The repositories resolved in a trace, oldest first. -/
def resolvedRepos (t : Trace) : List Str := t.map (·.repo)

/-- A host on which git is found and lists the same `out` for every
repository. -/
def listingExec (out : Str) : Exec :=
  ⟨fun _ _ => .ok "/usr/bin/git".toList, fun _ _ _ => .ok out⟩

/-- A host on which every git invocation fails. -/
def failingExec : Exec :=
  ⟨fun _ _ => .ok "/usr/bin/git".toList, fun _ _ _ => .error ⟨"exit status 128".toList⟩⟩

/-! ## Vocabulary of the specification -/

/-- The characters a valid version is made of: `[0-9A-Za-z-]`, `.` and `+`. -/
def semver.allowed (c : Char) : Bool := semver.isIdentChar c || c = '.' || c = '+'

/-- Whether a resolution returned a tag rather than an error. -/
def Resolution.succeeded (a : Resolution) : Bool :=
  match a.result with
  | .ok _ => true
  | .error _ => false

/-- The tag a listing line contributes, in the words of the specification:
the second whitespace-separated field with `refs/tags/` stripped, when the
line has at least two fields and the second begins with `refs/tags/` and is
longer than it. -/
def tagOfLine (line : Str) : Option Str :=
  match Fields line with
  | _ :: ref :: _ =>
    if tagRefPrefix <+: ref ∧ tagRefPrefix.length < ref.length then
      some (ref.drop tagRefPrefix.length)
    else none
  | _ => none

/-- The tag list of a listing, in the words of the specification: carriage
returns removed, split on newlines, the tags of the tag-ref lines in listing
order. -/
def specTags (out : Str) : List Str :=
  (Split (out.filter (· ≠ '\r')) '\n').filterMap tagOfLine

/-- The suffix git puts on the peeled entry of an annotated tag. -/
def peeledSuffix : Str := "^\x7b\x7d".toList

/-- A listing with an annotated tag: the tag object, then its peeled
entry. -/
def peeledListing : Str :=
  "h1 refs/tags/v2.0.0\nh2 refs/tags/v2.0.0^\x7b\x7d\n".toList

/-! ## Lemmas on the `strings` model -/

theorem Index_of_not_mem (s : Str) (c : Char) (h : c ∉ s) : Index s c = none := by
  induction s with
  | nil => rfl
  | cons a as ih =>
    have h1 : a ≠ c := fun e => h (by simp [e])
    have h2 : c ∉ as := fun m => h (List.mem_cons_of_mem _ m)
    simp [Index, h1, ih h2]

theorem Index_append (a b : Str) (c : Char) (h : c ∉ a) :
    Index (a ++ c :: b) c = some a.length := by
  induction a with
  | nil => simp [Index]
  | cons x xs ih =>
    have h1 : x ≠ c := fun e => h (by simp [e])
    have h2 : c ∉ xs := fun m => h (List.mem_cons_of_mem _ m)
    simp [Index, h1, ih h2]

/-- A string without the separator is not cut. -/
theorem Cut_of_not_mem (s : Str) (c : Char) (h : c ∉ s) : Cut s c = (s, [], false) := by
  simp [Cut, Index_of_not_mem s c h]

/-- Cutting `a ++ c :: b` at the first `c`, when `a` has none. -/
theorem Cut_append (a b : Str) (c : Char) (h : c ∉ a) :
    Cut (a ++ c :: b) c = (a, b, true) := by
  simp [Cut, Index_append a b c h]

theorem Split_ne_nil (s : Str) (c : Char) : Split s c ≠ [] := by
  cases s with
  | nil => simp [Split]
  | cons a as =>
    unfold Split
    split
    · simp
    · split <;> simp

theorem Split_of_not_mem (s : Str) (c : Char) (h : c ∉ s) : Split s c = [s] := by
  induction s with
  | nil => rfl
  | cons a as ih =>
    have h1 : a ≠ c := fun e => h (by simp [e])
    have h2 : c ∉ as := fun m => h (List.mem_cons_of_mem _ m)
    simp [Split, h1, ih h2]

theorem Split_append (a b : Str) (c : Char) (h : c ∉ a) :
    Split (a ++ c :: b) c = a :: Split b c := by
  induction a with
  | nil => simp [Split]
  | cons x xs ih =>
    have h1 : x ≠ c := fun e => h (by simp [e])
    have h2 : c ∉ xs := fun m => h (List.mem_cons_of_mem _ m)
    simp [Split, h1, ih h2]

/-- Owner and repository alone are left as they are. -/
theorem safeRepo_two (o r : Str) (ho : '/' ∉ o) (hr : '/' ∉ r) :
    safeRepo (o ++ '/' :: r) = o ++ '/' :: r := by
  simp [safeRepo, Split_append o r '/' ho, Split_of_not_mem r '/' hr]

/-- A subpath after owner and repository is dropped. -/
theorem safeRepo_three (o r sub : Str) (ho : '/' ∉ o) (hr : '/' ∉ r) :
    safeRepo (o ++ '/' :: (r ++ '/' :: sub)) = o ++ '/' :: r := by
  have h3 : Split sub '/' ≠ [] := Split_ne_nil sub '/'
  cases hs : Split sub '/' with
  | nil => exact absurd hs h3
  | cons p ps =>
    simp [safeRepo, Split_append o _ '/' ho, Split_append r sub '/' hr, hs, Join]

/-! ## Unfolding `Update` on a well-formed reference -/

theorem Update_skip (os : Exec) (s : Run) (use : Str)
    (h : (Cut use '@').2.2 = false ∨ (Cut use '@').1 = [] ∨ (Cut use '@').2.1 = []) :
    Update os s use = (([], none), s) := by
  unfold Update
  rcases hc : Cut use '@' with ⟨repo, tag, ok⟩
  rw [hc] at h
  simp only at h ⊢
  rcases h with h | h | h <;> simp [h]

theorem Update_hit (os : Exec) (s : Run) (repo tag L : Str)
    (hat : '@' ∉ repo) (hrepo : repo ≠ []) (htag : tag ≠ [])
    (hL : s.u.repos (safeRepo repo) = some L) :
    Update os s (repo ++ '@' :: tag)
      = ((if semver.Compare L tag > 0 then L else [], none), s) := by
  unfold Update
  rw [Cut_append repo tag '@' hat]
  simp only [hrepo, htag, hL]
  by_cases hc : semver.Compare L tag > 0 <;> simp [hc]

theorem Update_miss_ok (os : Exec) (s : Run) (repo tag L : Str)
    (hat : '@' ∉ repo) (hrepo : repo ≠ []) (htag : tag ≠ [])
    (hnone : s.u.repos (safeRepo repo) = none)
    (hL : getLatestTag os s.trace (safeRepo repo) = .ok L) :
    Update os s (repo ++ '@' :: tag)
      = ((if semver.Compare L tag > 0 then L else [], none),
          ⟨⟨fun k => if k = safeRepo repo then some L else s.u.repos k⟩,
            s.trace ++ [⟨safeRepo repo, .ok L⟩]⟩) := by
  unfold Update
  rw [Cut_append repo tag '@' hat]
  simp only [hrepo, htag, hnone, hL]
  by_cases hc : semver.Compare L tag > 0 <;> simp [hc]

theorem Update_miss_error (os : Exec) (s : Run) (repo tag : Str) (e : GoError)
    (hat : '@' ∉ repo) (hrepo : repo ≠ []) (htag : tag ≠ [])
    (hnone : s.u.repos (safeRepo repo) = none)
    (hL : getLatestTag os s.trace (safeRepo repo) = .error e) :
    Update os s (repo ++ '@' :: tag)
      = (([], some e), ⟨s.u, s.trace ++ [⟨safeRepo repo, .error e⟩]⟩) := by
  unfold Update
  rw [Cut_append repo tag '@' hat]
  simp only [hrepo, htag, hnone, hL]
  simp

/-! ## Lemmas on the `semver` model -/

namespace semver

theorem compareInt_self (x : Str) : compareInt x x = 0 := by
  simp [compareInt]

theorem comparePrerelease_self (x : Str) : comparePrerelease x x = 0 := by
  simp [comparePrerelease]

/-- A version is never above itself, valid or not. -/
theorem Compare_self (t : Str) : Compare t t = 0 := by
  unfold Compare
  cases parse t with
  | none => rfl
  | some p => simp [compareInt_self, comparePrerelease_self]

/-- An invalid version is never above anything. -/
theorem Compare_of_invalid_left (L t : Str) (h : parse L = none) : Compare L t ≤ 0 := by
  unfold Compare
  rw [h]
  cases parse t <;> simp

/-- Against an invalid version, exactly the valid ones are above. -/
theorem Compare_of_invalid_right (L t : Str) (h : parse t = none) :
    Compare L t = if IsValid L then 1 else 0 := by
  unfold Compare IsValid
  rw [h]
  cases parse L <;> simp

theorem IsValid_of_Compare_pos (L t : Str) (h : 0 < Compare L t) : IsValid L = true := by
  cases hp : parse L with
  | none =>
    have := Compare_of_invalid_left L t hp
    omega
  | some p => simp [IsValid, hp]

theorem allowed_of_isDigit (c : Char) (h : isDigit c = true) : allowed c = true := by
  simp only [isDigit] at h
  simp [allowed, isIdentChar, h]

theorem take_length_takeWhile (p : Char → Bool) (l : Str) :
    l.take (l.takeWhile p).length = l.takeWhile p := by
  induction l with
  | nil => rfl
  | cons a as ih =>
    by_cases h : p a = true
    · simp [List.takeWhile_cons, h, ih]
    · simp [List.takeWhile_cons, h]

theorem parseInt_some (v a b : Str) (h : parseInt v = some (a, b)) :
    v = a ++ b ∧ ∀ c ∈ a, allowed c = true := by
  cases v with
  | nil => simp [parseInt] at h
  | cons x xs =>
    simp only [parseInt] at h
    split at h
    · exact absurd h (by simp)
    · rename_i hx
      split at h
      · exact absurd h (by simp)
      · simp only [Option.some.injEq, Prod.mk.injEq] at h
        obtain ⟨ha, hb⟩ := h
        refine ⟨by rw [← ha, ← hb, List.take_append_drop], ?_⟩
        intro c hc
        rw [← ha, Nat.add_comm, List.take_succ_cons, take_length_takeWhile] at hc
        rcases List.mem_cons.mp hc with hc | hc
        · subst hc
          apply allowed_of_isDigit
          have h1 : ¬ c < '0' := fun h1 => hx (Or.inl h1)
          have h2 : ¬ '9' < c := fun h2 => hx (Or.inr h2)
          simp [isDigit, not_lt.mp h1, not_lt.mp h2]
        · exact allowed_of_isDigit c (List.mem_takeWhile_imp hc)

theorem prereleaseLoop_some (cs : Str) :
    ∀ (cur : Str) (i j : Nat), prereleaseLoop cs cur i = some j →
      ∃ k, j = i + k ∧ ∀ c ∈ cs.take k, allowed c = true := by
  induction cs with
  | nil =>
    intro cur i j h
    simp only [prereleaseLoop] at h
    split at h
    · exact absurd h (by simp)
    · exact ⟨0, by simpa using h.symm, by simp⟩
  | cons x xs ih =>
    intro cur i j h
    simp only [prereleaseLoop] at h
    split at h
    · split at h
      · exact absurd h (by simp)
      · exact ⟨0, by simpa using h.symm, by simp⟩
    · split at h
      · exact absurd h (by simp)
      · rename_i hbad
        split at h
        · rename_i hdot
          split at h
          · exact absurd h (by simp)
          · obtain ⟨k, hk, hall⟩ := ih _ _ _ h
            refine ⟨k + 1, by omega, ?_⟩
            intro c hc
            rw [List.take_succ_cons] at hc
            rcases List.mem_cons.mp hc with hc | hc
            · subst hc; simp [allowed, hdot]
            · exact hall c hc
        · rename_i hdot
          obtain ⟨k, hk, hall⟩ := ih _ _ _ h
          refine ⟨k + 1, by omega, ?_⟩
          intro c hc
          rw [List.take_succ_cons] at hc
          rcases List.mem_cons.mp hc with hc | hc
          · subst hc
            have : isIdentChar c = true := by
              by_contra hi
              exact hbad (by simp [hi, hdot])
            simp [allowed, this]
          · exact hall c hc

theorem buildLoop_some (cs : Str) :
    ∀ (cur : Str) (i j : Nat), buildLoop cs cur i = some j →
      ∃ k, j = i + k ∧ ∀ c ∈ cs.take k, allowed c = true := by
  induction cs with
  | nil =>
    intro cur i j h
    simp only [buildLoop] at h
    split at h
    · exact absurd h (by simp)
    · exact ⟨0, by simpa using h.symm, by simp⟩
  | cons x xs ih =>
    intro cur i j h
    simp only [buildLoop] at h
    split at h
    · exact absurd h (by simp)
    · rename_i hbad
      split at h
      · rename_i hdot
        split at h
        · exact absurd h (by simp)
        · obtain ⟨k, hk, hall⟩ := ih _ _ _ h
          refine ⟨k + 1, by omega, ?_⟩
          intro c hc
          rw [List.take_succ_cons] at hc
          rcases List.mem_cons.mp hc with hc | hc
          · subst hc; simp [allowed, hdot]
          · exact hall c hc
      · rename_i hdot
        obtain ⟨k, hk, hall⟩ := ih _ _ _ h
        refine ⟨k + 1, by omega, ?_⟩
        intro c hc
        rw [List.take_succ_cons] at hc
        rcases List.mem_cons.mp hc with hc | hc
        · subst hc
          have : isIdentChar c = true := by
            by_contra hi
            exact hbad (by simp [hi, hdot])
          simp [allowed, this]
        · exact hall c hc

theorem parsePrerelease_some (v a b : Str) (h : parsePrerelease v = some (a, b)) :
    v = a ++ b ∧ ∀ c ∈ a, allowed c = true := by
  cases v with
  | nil => simp [parsePrerelease] at h
  | cons x xs =>
    simp only [parsePrerelease] at h
    split at h
    · exact absurd h (by simp)
    · rename_i hx
      split at h
      · exact absurd h (by simp)
      · rename_i i hi
        obtain ⟨k, hk, hall⟩ := prereleaseLoop_some _ _ _ _ hi
        simp only [Option.some.injEq, Prod.mk.injEq] at h
        obtain ⟨ha, hb⟩ := h
        refine ⟨by rw [← ha, ← hb, List.take_append_drop], ?_⟩
        intro c hc
        rw [← ha, hk, Nat.add_comm, List.take_succ_cons] at hc
        rcases List.mem_cons.mp hc with hc | hc
        · have hx1 : x = '-' := by simpa using hx
          subst hc; subst hx1; decide
        · exact hall c hc

theorem parseBuild_some (v a b : Str) (h : parseBuild v = some (a, b)) :
    v = a ++ b ∧ ∀ c ∈ a, allowed c = true := by
  cases v with
  | nil => simp [parseBuild] at h
  | cons x xs =>
    simp only [parseBuild] at h
    split at h
    · exact absurd h (by simp)
    · rename_i hx
      split at h
      · exact absurd h (by simp)
      · rename_i i hi
        obtain ⟨k, hk, hall⟩ := buildLoop_some _ _ _ _ hi
        simp only [Option.some.injEq, Prod.mk.injEq] at h
        obtain ⟨ha, hb⟩ := h
        refine ⟨by rw [← ha, ← hb, List.take_append_drop], ?_⟩
        intro c hc
        rw [← ha, hk, Nat.add_comm, List.take_succ_cons] at hc
        rcases List.mem_cons.mp hc with hc | hc
        · have hx1 : x = '+' := by simpa using hx
          subst hc; subst hx1; decide
        · exact hall c hc

theorem parseTail_some (major minor patch v : Str) (p : Parsed)
    (h : parseTail major minor patch v = some p) : ∀ c ∈ v, allowed c = true := by
  simp only [parseTail] at h
  split at h
  · exact absurd h (by simp)
  · rename_i prerelease v1 hpre
    split at h
    · exact absurd h (by simp)
    · rename_i build v2 hbld
      split at h
      · exact absurd h (by simp)
      · rename_i hv2
        have hv2 : v2 = [] := by simpa using hv2
        have h1 : v = prerelease ++ v1 ∧ ∀ c ∈ prerelease, allowed c = true := by
          split at hpre
          · exact parsePrerelease_some _ _ _ hpre
          · simp only [Option.some.injEq, Prod.mk.injEq] at hpre
            obtain ⟨ha, hb⟩ := hpre
            subst ha; subst hb
            simp
        have h2 : v1 = build ++ v2 ∧ ∀ c ∈ build, allowed c = true := by
          split at hbld
          · exact parseBuild_some _ _ _ hbld
          · simp only [Option.some.injEq, Prod.mk.injEq] at hbld
            obtain ⟨ha, hb⟩ := hbld
            subst ha; subst hb
            simp
        intro c hc
        rw [h1.1, h2.1, hv2] at hc
        simp only [List.append_nil, List.mem_append] at hc
        rcases hc with hc | hc
        · exact h1.2 c hc
        · exact h2.2 c hc

/-- A valid version consists of letters, digits, `-`, `.` and `+` only. -/
theorem parse_some (v : Str) (p : Parsed) (h : parse v = some p) :
    ∀ c ∈ v, allowed c = true := by
  cases v with
  | nil => simp [parse] at h
  | cons x v0 =>
    simp only [parse] at h
    split at h
    · exact absurd h (by simp)
    · rename_i hx
      have hx : x = 'v' := by simpa using hx
      split at h
      · exact absurd h (by simp)
      · rename_i major v1 hmajor
        obtain ⟨e0, a0⟩ := parseInt_some _ _ _ hmajor
        have hhead : ∀ c ∈ x :: major, allowed c = true := by
          intro c hc
          rcases List.mem_cons.mp hc with hc | hc
          · subst hc; subst hx; decide
          · exact a0 c hc
        split at h
        · intro c hc
          rw [e0] at hc
          simpa using hhead c (by simpa using hc)
        · rename_i d1 r1
          split at h
          · exact absurd h (by simp)
          · rename_i hd1
            have hd1 : d1 = '.' := by simpa using hd1
            split at h
            · exact absurd h (by simp)
            · rename_i minor v2 hminor
              obtain ⟨e1, a1⟩ := parseInt_some _ _ _ hminor
              have hmid : ∀ c ∈ d1 :: minor, allowed c = true := by
                intro c hc
                rcases List.mem_cons.mp hc with hc | hc
                · subst hc; subst hd1; decide
                · exact a1 c hc
              split at h
              · intro c hc
                rw [e0, e1] at hc
                simp only [List.append_nil, List.mem_cons, List.mem_append] at hc
                rcases hc with hc | hc | hc | hc
                · exact hhead c (by simp [hc])
                · exact hhead c (by simp [hc])
                · exact hmid c (by simp [hc])
                · exact hmid c (by simp [hc])
              · rename_i d2 r2
                split at h
                · exact absurd h (by simp)
                · rename_i hd2
                  have hd2 : d2 = '.' := by simpa using hd2
                  split at h
                  · exact absurd h (by simp)
                  · rename_i patch v3 hpatch
                    obtain ⟨e2, a2⟩ := parseInt_some _ _ _ hpatch
                    have a3 := parseTail_some _ _ _ _ _ h
                    intro c hc
                    rw [e0, e1, e2] at hc
                    simp only [List.mem_cons, List.mem_append] at hc
                    rcases hc with hc | hc | hc | hc | hc | hc | hc
                    · exact hhead c (by simp [hc])
                    · exact hhead c (by simp [hc])
                    · exact hmid c (by simp [hc])
                    · exact hmid c (by simp [hc])
                    · subst hc; subst hd2; decide
                    · exact a2 c hc
                    · exact a3 c hc

/-- A string with a character outside `[0-9A-Za-z.+-]` is not a valid
version. -/
theorem parse_eq_none_of_mem (v : Str) (c : Char) (hc : c ∈ v) (hbad : allowed c = false) :
    parse v = none := by
  cases h : parse v with
  | none => rfl
  | some p =>
    have := parse_some v p h c hc
    rw [hbad] at this
    exact absurd this (by simp)

/-- The loop of `comparePrerelease` never runs out of fuel: any two amounts
of fuel above the length of `x` give the same result. -/
theorem prereleaseRounds_fuel (n m : Nat) :
    ∀ (x y : Str), x.length < n → x.length < m →
      prereleaseRounds n x y = prereleaseRounds m x y := by
  induction n generalizing m with
  | zero => intro x y h; omega
  | succ n ih =>
    intro x y hn hm
    cases m with
    | zero => omega
    | succ m =>
      simp only [prereleaseRounds]
      by_cases hxy : x ≠ [] ∧ y ≠ []
      · have hlen : (nextIdent (x.drop 1)).2.length < x.length := by
          have hx : 0 < x.length := List.length_pos.mpr hxy.1
          simp only [nextIdent, List.length_drop]
          omega
        rw [if_pos hxy, if_pos hxy]
        split
        · rfl
        · exact ih m _ _ (by omega) (by omega)
      · rw [if_neg hxy, if_neg hxy]

end semver

/-! ## Lemmas on `parseOutputTags` -/

/-- Reading a run of non-space characters extends the field being read. -/
theorem fieldsLoop_word (w : Str) (hw : ∀ c ∈ w, isSpace c = false) :
    ∀ (rest x : Str) (acc : List Str),
      fieldsLoop (w ++ rest) (some x) acc = fieldsLoop rest (some (x ++ w)) acc := by
  induction w with
  | nil => intro rest x acc; simp
  | cons c cs ih =>
    intro rest x acc
    have hc : isSpace c = false := hw c (List.mem_cons_self _ _)
    have hcs : ∀ d ∈ cs, isSpace d = false := fun d hd => hw d (List.mem_cons_of_mem _ hd)
    rw [List.cons_append, fieldsLoop]
    simp only [hc, Bool.false_eq_true, if_false]
    rw [ih hcs]
    simp

/-- A line made of two words separated by one space character has exactly
these two fields. -/
theorem Fields_two (h ref : Str) (sep : Char) (hh : h ≠ []) (href : ref ≠ [])
    (hsep : isSpace sep = true) (h1 : ∀ c ∈ h, isSpace c = false)
    (h2 : ∀ c ∈ ref, isSpace c = false) :
    Fields (h ++ sep :: ref) = [h, ref] := by
  cases h with
  | nil => exact absurd rfl hh
  | cons a as =>
    cases ref with
    | nil => exact absurd rfl href
    | cons b bs =>
      have ha : isSpace a = false := h1 a (List.mem_cons_self _ _)
      have has : ∀ d ∈ as, isSpace d = false := fun d hd => h1 d (List.mem_cons_of_mem _ hd)
      have hb : isSpace b = false := h2 b (List.mem_cons_self _ _)
      have hbs : ∀ d ∈ bs, isSpace d = false := fun d hd => h2 d (List.mem_cons_of_mem _ hd)
      unfold Fields
      rw [List.cons_append, fieldsLoop]
      simp only [ha, Bool.false_eq_true, if_false]
      rw [fieldsLoop_word as has, fieldsLoop]
      simp only [hsep, if_true]
      rw [fieldsLoop]
      simp only [hb, Bool.false_eq_true, if_false]
      have := fieldsLoop_word bs hbs [] [b] ([] ++ [[a] ++ as])
      rw [List.append_nil] at this
      rw [this]
      simp [fieldsLoop]

theorem ReplaceAll_nil (s : Str) (c : Char) : ReplaceAll s c [] = s.filter (· ≠ c) := by
  induction s with
  | nil => rfl
  | cons a as ih =>
    by_cases h : a = c
    · simp [ReplaceAll, h, ih]
    · simp [ReplaceAll, h, ih]

/-- One round of the loop appends the tag of the line, if it has one. -/
theorem parseOutputTagsStep_eq (tags : List Str) (line : Str) :
    parseOutputTagsStep tags line = tags ++ (tagOfLine line).toList := by
  unfold parseOutputTagsStep tagOfLine
  rcases hf : Fields line with _ | ⟨a, _ | ⟨ref, rest⟩⟩
  · simp
  · simp
  · have hn : ¬ (rest.length + 1 + 1 < 2) := by omega
    by_cases hp : tagRefPrefix <+: ref
    · have hp2 : List.isPrefixOf tagRefPrefix ref = true := List.isPrefixOf_iff_prefix.mpr hp
      have hlen : tagRefPrefix.length ≤ ref.length := hp.length_le
      by_cases hl : tagRefPrefix.length < ref.length
      · have hd : List.drop tagRefPrefix.length ref ≠ [] := by
          intro h
          have := List.drop_eq_nil_iff.mp h
          omega
        simp [HasPrefix, hp, hp2, hl, hd, hn]
      · have hd : List.drop tagRefPrefix.length ref = [] :=
          List.drop_eq_nil_iff.mpr (by omega)
        simp [HasPrefix, hp, hp2, hl, hd, hn]
    · have hp2 : List.isPrefixOf tagRefPrefix ref = false := by
        cases h : List.isPrefixOf tagRefPrefix ref with
        | false => rfl
        | true => exact absurd (List.isPrefixOf_iff_prefix.mp h) hp
      simp [HasPrefix, hp, hp2, hn]

theorem foldl_parseOutputTagsStep (lines : List Str) :
    ∀ acc : List Str, lines.foldl parseOutputTagsStep acc = acc ++ lines.filterMap tagOfLine := by
  induction lines with
  | nil => intro acc; simp
  | cons l ls ih =>
    intro acc
    rw [List.foldl_cons, ih, parseOutputTagsStep_eq]
    cases h : tagOfLine l <;> simp [List.filterMap_cons, h]

theorem parseOutputTags_eq_specTags (out : Str) : parseOutputTags out = specTags out := by
  simp [parseOutputTags, specTags, foldl_parseOutputTagsStep, ReplaceAll_nil]

/-- What `getLatestTag` returns once git has produced a listing. -/
theorem getLatestTag_ok (os : Exec) (t : Trace) (repo gitPath out : Str)
    (hlook : os.LookPath t "git".toList = .ok gitPath)
    (hout : os.Output t gitPath (lsRemoteArgs repo) = .ok out) :
    getLatestTag os t repo = .ok ((parseOutputTags out).getLast?.getD []) := by
  unfold getLatestTag
  rw [hlook]
  simp only [hout]
  rcases List.eq_nil_or_concat (parseOutputTags out) with h | ⟨l, b, h⟩
  · simp [h]
  · simp [h]

/-! ## What one `Update` does to the updater -/

/-- An `Update` either leaves the run as it is, or resolves one repository
that is not in the cache, records the resolution, and stores the tag when
there is one. -/
theorem Update_cases (os : Exec) (s : Run) (use : Str) :
    (Update os s use).2 = s ∨
    ∃ r res, s.u.repos r = none ∧ res = getLatestTag os s.trace r ∧
      (Update os s use).2.trace = s.trace ++ [⟨r, res⟩] ∧
      ((∃ e, res = .error e ∧ (Update os s use).2.u = s.u) ∨
        (∃ L, res = .ok L ∧
          (Update os s use).2.u = ⟨fun k => if k = r then some L else s.u.repos k⟩)) := by
  unfold Update
  rcases Cut use '@' with ⟨repo, tag, ok⟩
  simp only
  split
  · exact Or.inl rfl
  · cases hc : s.u.repos (safeRepo repo) with
    | some latest =>
      simp only
      split <;> exact Or.inl rfl
    | none =>
      right
      cases hg : getLatestTag os s.trace (safeRepo repo) with
      | error e =>
        exact ⟨safeRepo repo, .error e, hc, hg.symm, rfl, Or.inl ⟨e, rfl, rfl⟩⟩
      | ok L =>
        refine ⟨safeRepo repo, .ok L, hc, hg.symm, ?_, Or.inr ⟨L, rfl, ?_⟩⟩
        · simp only
          split <;> rfl
        · simp only
          split <;> rfl

/-- A cache entry, once stored, is kept by every later `Update`. -/
theorem Update_repos_some (os : Exec) (s : Run) (use r L : Str)
    (h : s.u.repos r = some L) : (Update os s use).2.u.repos r = some L := by
  rcases Update_cases os s use with h1 | ⟨r1, res, hnone, _, _, h2 | h2⟩
  · rw [h1]; exact h
  · obtain ⟨e, _, hu⟩ := h2
    rw [hu]; exact h
  · obtain ⟨L1, _, hu⟩ := h2
    rw [hu]
    have hne : r ≠ r1 := by
      intro e
      rw [e, hnone] at h
      exact absurd h (by simp)
    simp [hne, h]

theorem runUpdates_repos_some (os : Exec) (uses : List Str) :
    ∀ (s : Run) (r L : Str), s.u.repos r = some L →
      (runUpdates os s uses).u.repos r = some L := by
  induction uses with
  | nil => intro s r L h; exact h
  | cons use rest ih =>
    intro s r L h
    exact ih _ r L (Update_repos_some os s use r L h)

/-- The invariant of a run: no repository is resolved again after a
successful resolution, and every successfully resolved repository is in the
cache. -/
theorem Update_invariant (os : Exec) (s : Run) (use : Str)
    (h1 : s.trace.Pairwise (fun a b => a.repo = b.repo → a.succeeded = false))
    (h2 : ∀ a ∈ s.trace, a.succeeded = true → s.u.repos a.repo ≠ none) :
    (Update os s use).2.trace.Pairwise (fun a b => a.repo = b.repo → a.succeeded = false) ∧
      ∀ a ∈ (Update os s use).2.trace, a.succeeded = true →
        (Update os s use).2.u.repos a.repo ≠ none := by
  rcases Update_cases os s use with h | ⟨r, res, hnone, _, ht, hu⟩
  · rw [h]; exact ⟨h1, h2⟩
  · have hfail : ∀ a ∈ s.trace, a.repo = r → a.succeeded = false := by
      intro a ha hr
      cases hs : a.succeeded with
      | false => rfl
      | true =>
        have := h2 a ha hs
        rw [hr] at this
        exact absurd hnone this
    constructor
    · rw [ht, List.pairwise_append]
      refine ⟨h1, List.pairwise_singleton _ _, ?_⟩
      intro a ha b hb
      rw [List.mem_singleton] at hb
      subst hb
      exact hfail a ha
    · intro a ha hs
      rw [ht, List.mem_append, List.mem_singleton] at ha
      rcases hu with ⟨e, he, hu⟩ | ⟨L, hL, hu⟩
      · rw [hu]
        rcases ha with ha | ha
        · exact h2 a ha hs
        · subst ha
          subst he
          simp [Resolution.succeeded] at hs
      · rw [hu]
        rcases ha with ha | ha
        · have := h2 a ha hs
          by_cases hr : a.repo = r
          · simp [hr]
          · simpa [hr] using this
        · subst ha
          simp

theorem runUpdates_invariant (os : Exec) (uses : List Str) :
    ∀ s : Run,
      s.trace.Pairwise (fun a b => a.repo = b.repo → a.succeeded = false) →
      (∀ a ∈ s.trace, a.succeeded = true → s.u.repos a.repo ≠ none) →
      (runUpdates os s uses).trace.Pairwise
        (fun a b => a.repo = b.repo → a.succeeded = false) := by
  induction uses with
  | nil => intro s h1 _; exact h1
  | cons use rest ih =>
    intro s h1 h2
    have h := Update_invariant os s use h1 h2
    exact ih _ h.1 h.2

/-- In a trace where nothing is resolved again after a success, a repository
all of whose resolutions succeeded was resolved at most once. -/
theorem count_le_one_of_pairwise (t : Trace) (r : Str)
    (hp : t.Pairwise (fun a b => a.repo = b.repo → a.succeeded = false))
    (hall : ∀ a ∈ t, a.repo = r → a.succeeded = true) :
    (resolvedRepos t).count r ≤ 1 := by
  induction t with
  | nil => simp [resolvedRepos]
  | cons a as ih =>
    rw [List.pairwise_cons] at hp
    have ih1 := ih hp.2 (fun b hb => hall b (List.mem_cons_of_mem _ hb))
    by_cases hr : a.repo = r
    · have hs := hall a (List.mem_cons_self _ _) hr
      have hnot : r ∉ resolvedRepos as := by
        intro hm
        obtain ⟨b, hb, hbr⟩ := List.mem_map.mp hm
        have := hp.1 b hb (by rw [hr, hbr])
        rw [hs] at this
        exact absurd this (by simp)
      have h0 : (resolvedRepos as).count r = 0 := List.count_eq_zero_of_not_mem hnot
      simp only [resolvedRepos, List.map_cons] at h0 ⊢
      rw [hr, List.count_cons_self, h0]
    · simp only [resolvedRepos, List.map_cons] at ih1 ⊢
      rw [List.count_cons_of_ne (Ne.symm hr)]
      exact ih1

/-- In such a trace every repository has at most one successful
resolution. -/
theorem succeeded_le_one_of_pairwise (t : Trace) (r : Str)
    (hp : t.Pairwise (fun a b => a.repo = b.repo → a.succeeded = false)) :
    (t.filter (fun a => decide (a.repo = r) && a.succeeded)).length ≤ 1 := by
  induction t with
  | nil => simp
  | cons a as ih =>
    rw [List.pairwise_cons] at hp
    have ih1 := ih hp.2
    by_cases hr : a.repo = r ∧ a.succeeded = true
    · have hnone : as.filter (fun a => decide (a.repo = r) && a.succeeded) = [] := by
        rw [List.filter_eq_nil_iff]
        intro b hb hcond
        simp only [Bool.and_eq_true, decide_eq_true_eq] at hcond
        have := hp.1 b hb (by rw [hr.1, hcond.1])
        rw [hr.2] at this
        exact absurd this (by simp)
      simp [List.filter_cons, hr.1, hr.2, hnone]
    · have hc : (decide (a.repo = r) && a.succeeded) = false := by
        rw [Bool.and_eq_false_iff]
        by_cases h1 : a.repo = r
        · right
          cases hs : a.succeeded with
          | false => rfl
          | true => exact absurd ⟨h1, hs⟩ hr
        · left; simp [h1]
      rw [List.filter_cons, hc]
      simpa using ih1

/-- The result of `Update` on a well-formed reference whose latest tag
resolves to `L`, from the cache or from a successful resolution. -/
theorem Update_resolved (os : Exec) (s : Run) (repo tag L : Str)
    (hat : '@' ∉ repo) (hrepo : repo ≠ []) (htag : tag ≠ [])
    (hL : s.u.repos (safeRepo repo) = some L ∨
      (s.u.repos (safeRepo repo) = none ∧
        getLatestTag os s.trace (safeRepo repo) = .ok L)) :
    (Update os s (repo ++ '@' :: tag)).1
      = (if semver.Compare L tag > 0 then L else [], none) := by
  rcases hL with h | ⟨h1, h2⟩
  · rw [Update_hit os s repo tag L hat hrepo htag h]
  · rw [Update_miss_ok os s repo tag L hat hrepo htag h1 h2]

/-- On well-formed references `Update` depends on the repository part only
through `safeRepo`. -/
theorem Update_congr (os : Exec) (s : Run) (repo1 repo2 tag : Str)
    (hat1 : '@' ∉ repo1) (hne1 : repo1 ≠ []) (hat2 : '@' ∉ repo2) (hne2 : repo2 ≠ [])
    (h : safeRepo repo1 = safeRepo repo2) :
    Update os s (repo1 ++ '@' :: tag) = Update os s (repo2 ++ '@' :: tag) := by
  unfold Update
  rw [Cut_append repo1 tag '@' hat1, Cut_append repo2 tag '@' hat2]
  simp only [hne1, hne2, h]

/-- A suggestion is empty or is above some pinned tag. -/
theorem Update_suggestion (os : Exec) (s : Run) (use : Str) :
    (Update os s use).1.1 = [] ∨ ∃ tag, 0 < semver.Compare (Update os s use).1.1 tag := by
  unfold Update
  rcases Cut use '@' with ⟨repo, tag, ok⟩
  simp only
  split
  · exact Or.inl rfl
  · cases hc : s.u.repos (safeRepo repo) with
    | some latest =>
      simp only
      by_cases hcmp : semver.Compare latest tag > 0
      · rw [if_pos hcmp]; exact Or.inr ⟨tag, hcmp⟩
      · rw [if_neg hcmp]; exact Or.inl rfl
    | none =>
      cases hg : getLatestTag os s.trace (safeRepo repo) with
      | error e => exact Or.inl rfl
      | ok L =>
        simp only
        by_cases hcmp : semver.Compare L tag > 0
        · rw [if_pos hcmp]; exact Or.inr ⟨tag, hcmp⟩
        · rw [if_neg hcmp]; exact Or.inl rfl

/-! ## The claims -/

/-- C1: version ordering of `Update`. For a reference `repo@tag` (cut at its
first `@`, both sides non-empty) whose repository's latest tag resolves to
`L`, from the cache or from a successful resolution, `Update` returns
`(L, nil)` when `semver.Compare(L, tag) > 0` and `("", nil)` otherwise. So
pinned `v1.2.0` with latest `v1.3.0` gives the suggestion `v1.3.0`, pinned
`v2.0.0` with latest `v1.9.0` gives none, and a latest tag equal to the
pinned one gives none, for every tag string. -/
theorem C1_update_version_ordering (os : Exec) (s : Run) (repo tag L : Str)
    (hat : '@' ∉ repo) (hrepo : repo ≠ []) (htag : tag ≠ [])
    (hL : s.u.repos (safeRepo repo) = some L ∨
      (s.u.repos (safeRepo repo) = none ∧
        getLatestTag os s.trace (safeRepo repo) = .ok L)) :
    (Update os s (repo ++ '@' :: tag)).1
        = (if semver.Compare L tag > 0 then L else [], none) ∧
      (tag = "v1.2.0".toList → L = "v1.3.0".toList →
        (Update os s (repo ++ '@' :: tag)).1 = ("v1.3.0".toList, none)) ∧
      (tag = "v2.0.0".toList → L = "v1.9.0".toList →
        (Update os s (repo ++ '@' :: tag)).1 = ([], none)) ∧
      (L = tag → (Update os s (repo ++ '@' :: tag)).1 = ([], none)) := by
  have h := Update_resolved os s repo tag L hat hrepo htag hL
  refine ⟨h, ?_, ?_, ?_⟩
  · intro ht hl
    rw [h, ht, hl]
    decide
  · intro ht hl
    rw [h, ht, hl]
    decide
  · intro hl
    rw [h, hl, semver.Compare_self]
    simp

/-- C1 at `actions/checkout@v1.2.0`, resolved from a listing whose last tag
is `v1.3.0`. -/
theorem C1_update_version_ordering_witness :
    (Update (listingExec "abc123 refs/tags/v1.3.0\n".toList) freshRun
      ("actions/checkout".toList ++ '@' :: "v1.2.0".toList)).1
        = ("v1.3.0".toList, none) :=
  (C1_update_version_ordering (listingExec "abc123 refs/tags/v1.3.0\n".toList) freshRun
    "actions/checkout".toList "v1.2.0".toList "v1.3.0".toList
    (by decide) (by decide) (by decide) (Or.inr ⟨rfl, rfl⟩)).2.1 rfl rfl

/-- C2: a reference that contains no `@`, or has nothing before its first
`@`, or nothing after it, makes `Update` return the empty suggestion and no
error, whatever the cache holds and however the host answers; the run after
the call is the run before it, so nothing was resolved and the cache is
unchanged. -/
theorem C2_update_skips_malformed (os : Exec) (s : Run) (use : Str)
    (h : '@' ∉ use ∨ (∃ tag, use = '@' :: tag) ∨
      (∃ repo, '@' ∉ repo ∧ use = repo ++ ['@'])) :
    Update os s use = (([], none), s) := by
  apply Update_skip
  rcases h with h | ⟨tag, h⟩ | ⟨repo, hat, h⟩
  · left; rw [Cut_of_not_mem use '@' h]
  · right; left
    rw [h, show '@' :: tag = [] ++ '@' :: tag from rfl,
      Cut_append [] tag '@' (by simp)]
  · right; right
    rw [h, Cut_append repo [] '@' hat]

/-- C2 at the local action `./.github/actions/build`, on a host where every
resolution fails. -/
theorem C2_update_skips_malformed_witness :
    Update failingExec freshRun "./.github/actions/build".toList
      = (([], none), freshRun) :=
  C2_update_skips_malformed failingExec freshRun "./.github/actions/build".toList
    (Or.inl (by decide))

/-- C3: repository normalisation in `Update`. For a reference
`identifier@tag` (cut at its first `@`, both sides non-empty) the repository
identity is the first two `/`-separated segments of the identifier joined by
`/` when there are more than two segments, and the identifier itself
otherwise; `owner/repo/sub` has the identity `owner/repo`. That identity is
the cache key (a hit under it answers the call and leaves the run as it is; a
miss stores the resolved tag under it and touches no other key) and the
repository handed to the resolution (the trace grows by exactly the
resolution of the identity). Hence references with the same identity and the
same tag, such as two that differ only in the subpath, get the same result
from the same run. -/
theorem C3_repository_normalisation (os : Exec) (s : Run) (repo tag : Str)
    (hat : '@' ∉ repo) (hrepo : repo ≠ []) (htag : tag ≠ []) :
    (2 < (Split repo '/').length →
        safeRepo repo = Join ((Split repo '/').take 2) "/".toList) ∧
      ((Split repo '/').length ≤ 2 → safeRepo repo = repo) ∧
      (∀ o r sub : Str, '/' ∉ o → '/' ∉ r → repo = o ++ '/' :: (r ++ '/' :: sub) →
        safeRepo repo = o ++ '/' :: r) ∧
      (∀ L, s.u.repos (safeRepo repo) = some L →
        Update os s (repo ++ '@' :: tag)
          = ((if semver.Compare L tag > 0 then L else [], none), s)) ∧
      (s.u.repos (safeRepo repo) = none →
        (Update os s (repo ++ '@' :: tag)).2.trace
            = s.trace ++ [⟨safeRepo repo, getLatestTag os s.trace (safeRepo repo)⟩] ∧
          (∀ k, k ≠ safeRepo repo →
            (Update os s (repo ++ '@' :: tag)).2.u.repos k = s.u.repos k) ∧
          (∀ L, getLatestTag os s.trace (safeRepo repo) = .ok L →
            (Update os s (repo ++ '@' :: tag)).2.u.repos (safeRepo repo) = some L)) ∧
      (∀ repo2 : Str, '@' ∉ repo2 → repo2 ≠ [] → safeRepo repo2 = safeRepo repo →
        Update os s (repo2 ++ '@' :: tag) = Update os s (repo ++ '@' :: tag)) ∧
      (∀ o r sub1 sub2 : Str, '/' ∉ o → '/' ∉ r → '@' ∉ sub2 →
        repo = o ++ '/' :: (r ++ '/' :: sub1) →
        Update os s ((o ++ '/' :: (r ++ '/' :: sub2)) ++ '@' :: tag)
          = Update os s (repo ++ '@' :: tag)) := by
  refine ⟨?_, ?_, ?_, ?_, ?_, ?_, ?_⟩
  · intro h
    simp [safeRepo, h]
  · intro h
    have : ¬ (2 < (Split repo '/').length) := by omega
    simp [safeRepo, this]
  · intro o r sub ho hr e
    rw [e]
    exact safeRepo_three o r sub ho hr
  · intro L hL
    exact Update_hit os s repo tag L hat hrepo htag hL
  · intro hnone
    cases hg : getLatestTag os s.trace (safeRepo repo) with
    | error e =>
      rw [Update_miss_error os s repo tag e hat hrepo htag hnone hg]
      refine ⟨rfl, fun k _ => rfl, fun L hL => ?_⟩
      exact absurd hL (by simp)
    | ok L =>
      rw [Update_miss_ok os s repo tag L hat hrepo htag hnone hg]
      refine ⟨rfl, fun k hk => ?_, fun L1 hL1 => ?_⟩
      · simp [hk]
      · have : L = L1 := by simpa using hL1
        simp [this]
  · intro repo2 hat2 hne2 h
    exact Update_congr os s repo2 repo tag hat2 hne2 hat hrepo h
  · intro o r sub1 sub2 ho hr hsub2 e
    have hato : '@' ∉ o := fun m => hat (by rw [e]; simp [m])
    have hatr : '@' ∉ r := fun m => hat (by rw [e]; simp [m])
    have hat2 : '@' ∉ o ++ '/' :: (r ++ '/' :: sub2) := by
      simp only [List.mem_append, List.mem_cons, not_or]
      exact ⟨hato, by decide, hatr, by decide, hsub2⟩
    apply Update_congr os s _ repo tag hat2 (by simp) hat hrepo
    rw [e, safeRepo_three o r sub2 ho hr, safeRepo_three o r sub1 ho hr]

/-- C3 at `owner/repo/sub@v1` on a fresh updater: the identity is
`owner/repo`, it is what gets resolved, and `owner/repo/other@v1` gets the
same result. -/
theorem C3_repository_normalisation_witness :
    safeRepo "owner/repo/sub".toList = "owner/repo".toList ∧
      resolvedRepos (Update (listingExec "abc123 refs/tags/v2\n".toList) freshRun
        ("owner/repo/sub".toList ++ '@' :: "v1".toList)).2.trace = ["owner/repo".toList] ∧
      Update (listingExec "abc123 refs/tags/v2\n".toList) freshRun
          (("owner".toList ++ '/' :: ("repo".toList ++ '/' :: "other".toList))
            ++ '@' :: "v1".toList)
        = Update (listingExec "abc123 refs/tags/v2\n".toList) freshRun
            ("owner/repo/sub".toList ++ '@' :: "v1".toList) :=
  ⟨(C3_repository_normalisation (listingExec "abc123 refs/tags/v2\n".toList) freshRun
      "owner/repo/sub".toList "v1".toList (by decide) (by decide) (by decide)).2.2.1
      "owner".toList "repo".toList "sub".toList (by decide) (by decide) rfl,
    by decide,
    (C3_repository_normalisation (listingExec "abc123 refs/tags/v2\n".toList) freshRun
      "owner/repo/sub".toList "v1".toList (by decide) (by decide) (by decide)).2.2.2.2.2.2
      "owner".toList "repo".toList "sub".toList "other".toList
      (by decide) (by decide) (by decide) rfl⟩

/-- C4 as stated fails: on a host where every resolution fails, the two
references `actions/checkout@v3` and `actions/checkout@v4` make a fresh
updater resolve `actions/checkout` twice. -/
theorem C4_memoization_counterexample :
    ¬ (∀ (os : Exec) (uses : List Str) (r : Str),
        (resolvedRepos (runUpdates os freshRun uses).trace).count r ≤ 1) := by
  intro h
  have h2 := h failingExec ["actions/checkout@v3".toList, "actions/checkout@v4".toList]
    "actions/checkout".toList
  revert h2
  decide

/-- C4, amended: memoization of successful resolutions. In every sequence of
`Update` calls on a fresh updater, under every behaviour of the host, a
repository identity is never resolved again after a resolution of it that
succeeded: of two resolutions of one identity the earlier one failed. So an
identity has at most one successful resolution, and an identity none of whose
resolutions failed is resolved at most once; `actions/checkout@v3` followed by
`actions/checkout@v4` resolves `actions/checkout` exactly once when that
resolution succeeds. -/
theorem C4_memoization_of_successful_resolutions (os : Exec) (uses : List Str) :
    (runUpdates os freshRun uses).trace.Pairwise
        (fun a b => a.repo = b.repo → a.succeeded = false) ∧
      (∀ r : Str, ((runUpdates os freshRun uses).trace.filter
        (fun a => decide (a.repo = r) && a.succeeded)).length ≤ 1) ∧
      (∀ r : Str,
        (∀ a ∈ (runUpdates os freshRun uses).trace, a.repo = r → a.succeeded = true) →
        (resolvedRepos (runUpdates os freshRun uses).trace).count r ≤ 1) ∧
      (∀ L : Str, getLatestTag os [] "actions/checkout".toList = .ok L →
        resolvedRepos (runUpdates os freshRun
          ["actions/checkout".toList ++ '@' :: "v3".toList,
            "actions/checkout".toList ++ '@' :: "v4".toList]).trace
          = ["actions/checkout".toList]) := by
  have hp := runUpdates_invariant os uses freshRun
    (by simp [freshRun]) (by simp [freshRun])
  refine ⟨hp, fun r => succeeded_le_one_of_pairwise _ r hp,
    fun r hall => count_le_one_of_pairwise _ r hp hall, ?_⟩
  intro L hL
  have hs : safeRepo "actions/checkout".toList = "actions/checkout".toList := by decide
  have h1 := Update_miss_ok os freshRun "actions/checkout".toList "v3".toList L
    (by decide) (by decide) (by decide) rfl (by rw [hs]; exact hL)
  simp only [runUpdates]
  rw [h1]
  simp only
  rw [Update_hit os _ "actions/checkout".toList "v4".toList L
    (by decide) (by decide) (by decide) (by simp)]
  simp only [resolvedRepos, freshRun, List.nil_append, List.map_cons, List.map_nil, hs]

/-- C5: tag-ref filtering of `parseOutputTags`. For every listing the result
is, in listing order, the second whitespace-separated field with `refs/tags/`
stripped, of exactly the lines (carriage returns removed, split on newlines)
that have at least two fields and whose second field begins with `refs/tags/`
and is longer than it; the listing `abc123 refs/tags/v1.0.0`,
`def456 refs/heads/main` yields exactly `v1.0.0`. -/
theorem C5_parseOutputTags_filters_tag_refs (out : Str) :
    parseOutputTags out = specTags out ∧
      parseOutputTags "abc123 refs/tags/v1.0.0\ndef456 refs/heads/main".toList
        = ["v1.0.0".toList] :=
  ⟨parseOutputTags_eq_specTags out, by decide⟩

/-- C6: empty tag listing. When git has produced a listing from which
`parseOutputTags` extracts no tag, `getLatestTag` returns the empty string
and no error; otherwise it returns the last extracted tag. And for every
pinned tag, valid version or not, `Update` on a repository whose latest tag
resolved to the empty string (from the cache or just now) returns no
suggestion and no error. -/
theorem C6_empty_tag_listing (os : Exec) (t : Trace) (repo gitPath out : Str)
    (hlook : os.LookPath t "git".toList = .ok gitPath)
    (hout : os.Output t gitPath (lsRemoteArgs repo) = .ok out) :
    (parseOutputTags out = [] → getLatestTag os t repo = .ok []) ∧
      (∀ (tags : List Str) (last : Str), parseOutputTags out = tags ++ [last] →
        getLatestTag os t repo = .ok last) ∧
      (∀ (s : Run) (repo1 tag : Str), '@' ∉ repo1 → repo1 ≠ [] → tag ≠ [] →
        (s.u.repos (safeRepo repo1) = some [] ∨
          (s.u.repos (safeRepo repo1) = none ∧
            getLatestTag os s.trace (safeRepo repo1) = .ok [])) →
        (Update os s (repo1 ++ '@' :: tag)).1 = ([], none)) := by
  have h := getLatestTag_ok os t repo gitPath out hlook hout
  refine ⟨?_, ?_, ?_⟩
  · intro he
    rw [h, he]; rfl
  · intro tags last he
    rw [h, he]; simp
  · intro s repo1 tag hat hrepo htag hL
    rw [Update_resolved os s repo1 tag [] hat hrepo htag hL]
    have := semver.Compare_of_invalid_left [] tag rfl
    have hn : ¬ (semver.Compare [] tag > 0) := by omega
    rw [if_neg hn]

/-- C6 on a host whose listing has only a branch: nothing is resolved, and
`owner/repo@main` gets no suggestion. -/
theorem C6_empty_tag_listing_witness :
    getLatestTag (listingExec "def456 refs/heads/main\n".toList) []
        "owner/repo".toList = .ok [] ∧
      (Update (listingExec "def456 refs/heads/main\n".toList) freshRun
        ("owner/repo".toList ++ '@' :: "main".toList)).1 = ([], none) :=
  ⟨(C6_empty_tag_listing (listingExec "def456 refs/heads/main\n".toList) []
      "owner/repo".toList "/usr/bin/git".toList "def456 refs/heads/main\n".toList
      rfl rfl).1 (by decide),
    (C6_empty_tag_listing (listingExec "def456 refs/heads/main\n".toList) []
      "owner/repo".toList "/usr/bin/git".toList "def456 refs/heads/main\n".toList
      rfl rfl).2.2 freshRun "owner/repo".toList "main".toList
      (by decide) (by decide) (by decide) (Or.inr ⟨rfl, rfl⟩)⟩

/-- C7: resolution failures are not suppressed. For a well-formed reference
whose repository identity is not in the cache, if `getLatestTag` fails with
error `e` then `Update` returns the empty suggestion together with exactly
`e`, and the cache is the one before the call. `getLatestTag` fails with the
error of `exec.LookPath` when git is not found, and with the error of the
command when it fails. -/
theorem C7_resolution_failure_propagates (os : Exec) (s : Run) (repo tag : Str)
    (e : GoError) (hat : '@' ∉ repo) (hrepo : repo ≠ []) (htag : tag ≠ [])
    (hnone : s.u.repos (safeRepo repo) = none)
    (herr : getLatestTag os s.trace (safeRepo repo) = .error e) :
    (Update os s (repo ++ '@' :: tag)).1 = ([], some e) ∧
      (Update os s (repo ++ '@' :: tag)).2.u = s.u ∧
      (∀ (t : Trace) (r : Str) (e1 : GoError),
        os.LookPath t "git".toList = .error e1 → getLatestTag os t r = .error e1) ∧
      (∀ (t : Trace) (r gitPath : Str) (e1 : GoError),
        os.LookPath t "git".toList = .ok gitPath →
        os.Output t gitPath (lsRemoteArgs r) = .error e1 →
        getLatestTag os t r = .error e1) := by
  rw [Update_miss_error os s repo tag e hat hrepo htag hnone herr]
  refine ⟨rfl, rfl, ?_, ?_⟩
  · intro t r e1 h
    unfold getLatestTag
    rw [h]
  · intro t r gitPath e1 h1 h2
    unfold getLatestTag
    rw [h1]
    simp only [h2]

/-- C7 at `actions/checkout@v4` on a host where git exits with an error. -/
theorem C7_resolution_failure_propagates_witness :
    (Update failingExec freshRun ("actions/checkout".toList ++ '@' :: "v4".toList)).1
        = ([], some ⟨"exit status 128".toList⟩) ∧
      (Update failingExec freshRun
        ("actions/checkout".toList ++ '@' :: "v4".toList)).2.u = freshRun.u :=
  ⟨(C7_resolution_failure_propagates failingExec freshRun "actions/checkout".toList
      "v4".toList ⟨"exit status 128".toList⟩ (by decide) (by decide) (by decide) rfl rfl).1,
    (C7_resolution_failure_propagates failingExec freshRun "actions/checkout".toList
      "v4".toList ⟨"exit status 128".toList⟩ (by decide) (by decide) (by decide) rfl rfl).2.1⟩

/-- C8 as stated fails: `main` is not a valid semantic version, yet
`owner/repo@main` with latest tag `v1.3.0` gets the suggestion `v1.3.0`. -/
theorem C8_unpinned_reference_counterexample :
    semver.IsValid "main".toList = false ∧
      (Update (listingExec "abc123 refs/tags/v1.3.0\n".toList) freshRun
        ("owner/repo".toList ++ '@' :: "main".toList)).1 = ("v1.3.0".toList, none) ∧
      (Update (listingExec "abc123 refs/tags/v1.3.0\n".toList) freshRun
        ("owner/repo".toList ++ '@' :: "main".toList)).1 ≠ ([], none) := by
  decide

/-- C8, amended: for a reference `owner/repo@ref` whose pinned part is not a
valid semantic version. When the repository's latest tag resolves to `L`,
from the cache or from a successful resolution, `Update` returns no error,
and it returns `L` as the suggestion when `L` is a valid semantic version and
no suggestion when `L` is not. When the repository is not in the cache and
its resolution fails with error `e`, `Update` returns the empty suggestion
together with `e`. -/
theorem C8_unpinned_reference_amended (os : Exec) (s : Run) (repo tag : Str)
    (hat : '@' ∉ repo) (hrepo : repo ≠ []) (htag : tag ≠ [])
    (hinvalid : semver.IsValid tag = false) :
    (∀ L : Str,
        (s.u.repos (safeRepo repo) = some L ∨
          (s.u.repos (safeRepo repo) = none ∧
            getLatestTag os s.trace (safeRepo repo) = .ok L)) →
        (Update os s (repo ++ '@' :: tag)).1
          = (if semver.IsValid L then L else [], none)) ∧
      (∀ e : GoError, s.u.repos (safeRepo repo) = none →
        getLatestTag os s.trace (safeRepo repo) = .error e →
        (Update os s (repo ++ '@' :: tag)).1 = ([], some e)) := by
  constructor
  · intro L hL
    rw [Update_resolved os s repo tag L hat hrepo htag hL]
    have hp : semver.parse tag = none := by
      simpa [semver.IsValid] using hinvalid
    rw [semver.Compare_of_invalid_right L tag hp]
    cases semver.IsValid L <;> simp
  · intro e hnone herr
    rw [Update_miss_error os s repo tag e hat hrepo htag hnone herr]

/-- C8, amended, at `owner/repo@main`: with the latest tag `v1.3.0` the
suggestion is `v1.3.0`, and on a host where git fails the error is
returned. -/
theorem C8_unpinned_reference_amended_witness :
    (Update (listingExec "abc123 refs/tags/v1.3.0\n".toList) freshRun
        ("owner/repo".toList ++ '@' :: "main".toList)).1
          = (if semver.IsValid "v1.3.0".toList then "v1.3.0".toList else [], none) ∧
      (Update failingExec freshRun ("owner/repo".toList ++ '@' :: "main".toList)).1
        = ([], some ⟨"exit status 128".toList⟩) :=
  ⟨(C8_unpinned_reference_amended (listingExec "abc123 refs/tags/v1.3.0\n".toList) freshRun
      "owner/repo".toList "main".toList
      (by decide) (by decide) (by decide) (by decide)).1 "v1.3.0".toList (Or.inr ⟨rfl, rfl⟩),
    (C8_unpinned_reference_amended failingExec freshRun
      "owner/repo".toList "main".toList
      (by decide) (by decide) (by decide) (by decide)).2 ⟨"exit status 128".toList⟩ rfl rfl⟩

/-- C9: cache store and cache hit. When `Update` resolves a repository
identity that is absent from the cache and the resolution succeeds with `L`
(the empty string included), it stores `L` under that identity and changes no
other entry. After any further `Update` calls on the same updater, an
`Update` for a reference with that identity resolves nothing and leaves the
whole run, cache included, as it is, and its result is determined by `L` and
the pinned tag alone. -/
theorem C9_cache_store_and_hit (os : Exec) (s : Run) (repo tag L : Str)
    (hat : '@' ∉ repo) (hrepo : repo ≠ []) (htag : tag ≠ [])
    (hnone : s.u.repos (safeRepo repo) = none)
    (hok : getLatestTag os s.trace (safeRepo repo) = .ok L) :
    (Update os s (repo ++ '@' :: tag)).2.u.repos (safeRepo repo) = some L ∧
      (∀ k, k ≠ safeRepo repo →
        (Update os s (repo ++ '@' :: tag)).2.u.repos k = s.u.repos k) ∧
      (∀ (mid : List Str) (repo2 tag2 : Str), '@' ∉ repo2 → repo2 ≠ [] → tag2 ≠ [] →
        safeRepo repo2 = safeRepo repo →
        Update os (runUpdates os (Update os s (repo ++ '@' :: tag)).2 mid)
            (repo2 ++ '@' :: tag2)
          = ((if semver.Compare L tag2 > 0 then L else [], none),
              runUpdates os (Update os s (repo ++ '@' :: tag)).2 mid)) := by
  have hstore : (Update os s (repo ++ '@' :: tag)).2.u.repos (safeRepo repo) = some L := by
    rw [Update_miss_ok os s repo tag L hat hrepo htag hnone hok]
    simp
  refine ⟨hstore, ?_, ?_⟩
  · intro k hk
    rw [Update_miss_ok os s repo tag L hat hrepo htag hnone hok]
    simp [hk]
  · intro mid repo2 tag2 hat2 hrepo2 htag2 hsame
    apply Update_hit os _ repo2 tag2 L hat2 hrepo2 htag2
    rw [hsame]
    exact runUpdates_repos_some os mid _ _ _ hstore

/-- C9 on a host with an empty listing: the empty string is stored for
`owner/repo`, and a later `owner/repo/sub@v2` is answered from the cache. -/
theorem C9_cache_store_and_hit_witness :
    (Update (listingExec []) freshRun
        ("owner/repo".toList ++ '@' :: "v1".toList)).2.u.repos
          (safeRepo "owner/repo".toList) = some [] ∧
      Update (listingExec []) (runUpdates (listingExec [])
            (Update (listingExec []) freshRun
              ("owner/repo".toList ++ '@' :: "v1".toList)).2 ["other/x@v1".toList])
          ("owner/repo/sub".toList ++ '@' :: "v2".toList)
        = ((if semver.Compare [] "v2".toList > 0 then [] else [], none),
            runUpdates (listingExec [])
              (Update (listingExec []) freshRun
                ("owner/repo".toList ++ '@' :: "v1".toList)).2 ["other/x@v1".toList]) :=
  ⟨(C9_cache_store_and_hit (listingExec []) freshRun "owner/repo".toList "v1".toList []
      (by decide) (by decide) (by decide) rfl rfl).1,
    (C9_cache_store_and_hit (listingExec []) freshRun "owner/repo".toList "v1".toList []
      (by decide) (by decide) (by decide) rfl rfl).2.2 ["other/x@v1".toList]
      "owner/repo/sub".toList "v2".toList (by decide) (by decide) (by decide) (by decide)⟩

/-- C10: peeled annotated-tag entries are kept as tags and suppress
suggestions. `parseOutputTags` turns a line whose ref-path is
`refs/tags/T^{}` into the tag `T^{}` (such as the line made of a hash, one
space character and that ref-path); when the last tag-ref line of the
listing is such an entry, `getLatestTag` returns `T^{}`, which is not a valid
semantic version; and when the latest tag is not a valid semantic version
`Update` returns no suggestion, for every pinned tag. Every non-empty
suggestion `Update` returns is a valid semantic version. With the listing
`h1 refs/tags/v2.0.0`, `h2 refs/tags/v2.0.0^{}` the pinned `v1.0.0` gets no
suggestion. -/
theorem C10_peeled_entries_suppress_suggestions (os : Exec) (s : Run) :
    (∀ (tags : List Str) (line h T : Str) (rest : List Str),
        Fields line = h :: (tagRefPrefix ++ (T ++ peeledSuffix)) :: rest →
        parseOutputTagsStep tags line = tags ++ [T ++ peeledSuffix]) ∧
      (∀ (tags : List Str) (h T : Str) (sep : Char), h ≠ [] → isSpace sep = true →
        (∀ c ∈ h, isSpace c = false) → (∀ c ∈ T, isSpace c = false) →
        parseOutputTagsStep tags (h ++ sep :: (tagRefPrefix ++ (T ++ peeledSuffix)))
          = tags ++ [T ++ peeledSuffix]) ∧
      (∀ (t : Trace) (repo gitPath out line h T : Str) (pre post rest : List Str),
        os.LookPath t "git".toList = .ok gitPath →
        os.Output t gitPath (lsRemoteArgs repo) = .ok out →
        Split (ReplaceAll out '\r' []) '\n' = pre ++ line :: post →
        Fields line = h :: (tagRefPrefix ++ (T ++ peeledSuffix)) :: rest →
        (∀ l ∈ post, parseOutputTagsStep [] l = []) →
        getLatestTag os t repo = .ok (T ++ peeledSuffix)) ∧
      (∀ T : Str, semver.IsValid (T ++ peeledSuffix) = false) ∧
      (∀ repo tag L : Str, '@' ∉ repo → repo ≠ [] → tag ≠ [] →
        semver.IsValid L = false →
        (s.u.repos (safeRepo repo) = some L ∨
          (s.u.repos (safeRepo repo) = none ∧
            getLatestTag os s.trace (safeRepo repo) = .ok L)) →
        (Update os s (repo ++ '@' :: tag)).1 = ([], none)) ∧
      (∀ use : Str, (Update os s use).1.1 ≠ [] →
        semver.IsValid (Update os s use).1.1 = true) ∧
      (parseOutputTags peeledListing = ["v2.0.0".toList, "v2.0.0".toList ++ peeledSuffix] ∧
        (Update (listingExec peeledListing) freshRun
          ("owner/repo".toList ++ '@' :: "v1.0.0".toList)).1 = ([], none)) := by
  have htag : ∀ (line h T : Str) (rest : List Str),
      Fields line = h :: (tagRefPrefix ++ (T ++ peeledSuffix)) :: rest →
      tagOfLine line = some (T ++ peeledSuffix) := by
    intro line h T rest hf
    unfold tagOfLine
    rw [hf]
    have h1 : tagRefPrefix <+: tagRefPrefix ++ (T ++ peeledSuffix) := List.prefix_append _ _
    have h2 : tagRefPrefix.length < (tagRefPrefix ++ (T ++ peeledSuffix)).length := by
      simp [peeledSuffix]
    simp only [h1, h2, and_self, if_true, List.drop_left]
  refine ⟨?_, ?_, ?_, ?_, ?_, ?_, ?_⟩
  · intro tags line h T rest hf
    rw [parseOutputTagsStep_eq, htag line h T rest hf]
    rfl
  · intro tags h T sep hh hsep h1 h2
    have hf : Fields (h ++ sep :: (tagRefPrefix ++ (T ++ peeledSuffix)))
        = [h, tagRefPrefix ++ (T ++ peeledSuffix)] := by
      apply Fields_two h _ sep hh (by simp [peeledSuffix]) hsep h1
      intro c hc
      simp only [List.mem_append] at hc
      rcases hc with hc | hc | hc
      · revert c; decide
      · exact h2 c hc
      · revert c; decide
    rw [parseOutputTagsStep_eq, htag _ h T [] hf]
    rfl
  · intro t repo gitPath out line h T pre post rest hlook hout hsplit hf hpost
    rw [getLatestTag_ok os t repo gitPath out hlook hout]
    have hnone : post.filterMap tagOfLine = [] := by
      rw [List.filterMap_eq_nil_iff]
      intro l hl
      have := hpost l hl
      rw [parseOutputTagsStep_eq] at this
      cases ht : tagOfLine l with
      | none => rfl
      | some x => rw [ht] at this; exact absurd this (by simp)
    have : parseOutputTags out = pre.filterMap tagOfLine ++ [T ++ peeledSuffix] := by
      unfold parseOutputTags
      simp only [hsplit, foldl_parseOutputTagsStep, List.nil_append, List.filterMap_append,
        List.filterMap_cons, htag line h T rest hf, hnone]
    rw [this]
    simp
  · intro T
    have : semver.parse (T ++ peeledSuffix) = none :=
      semver.parse_eq_none_of_mem _ '^' (by simp [peeledSuffix]) (by decide)
    simp [semver.IsValid, this]
  · intro repo tag L hat hrepo htag1 hinvalid hL
    rw [Update_resolved os s repo tag L hat hrepo htag1 hL]
    have hp : semver.parse L = none := by simpa [semver.IsValid] using hinvalid
    have := semver.Compare_of_invalid_left L tag hp
    have hn : ¬ (semver.Compare L tag > 0) := by omega
    rw [if_neg hn]
  · intro use hne
    rcases Update_suggestion os s use with h | ⟨tag, h⟩
    · exact absurd h hne
    · exact semver.IsValid_of_Compare_pos _ tag h
  · exact ⟨by decide, by decide⟩

end GhaUpdates
